import Mathlib
set_option maxRecDepth 8000

/-!
Verification of the article content-extraction engine of `still-reader`
(`src/extraction/extractor.ts`): candidate scoring, confidence gating,
sanitization and cleanup, embedded shallowly as pure Lean functions over an
HTML element-tree model.  Numeric score arithmetic is carried out in `ℚ`
(the source computes in IEEE doubles; all constants and operations used by
the scoring formula are exactly representable, and no claim here depends on
rounding of binary floating point).
-/

namespace StillReader

/-! ### Character-list string helpers -/

/-- `isPrefixL pat l` : is `pat` a prefix of `l`? -/
def isPrefixL : List Char → List Char → Bool
  | [], _ => true
  | _ :: _, [] => false
  | a :: as, b :: bs => a == b && isPrefixL as bs

/-- `containsL pat l` : does `pat` occur as a contiguous sublist of `l`? -/
def containsL (pat : List Char) : List Char → Bool
  | [] => isPrefixL pat []
  | c :: cs => isPrefixL pat (c :: cs) || containsL pat cs

/-- Substring test on strings (models JS `String.prototype.includes` /
regex literal-substring match). -/
def containsSub (s pat : String) : Bool :=
  containsL pat.data s.data

/-- ASCII lower-casing of one character.  Models JS `toLowerCase` on the
ASCII range, the only range exercised by the engine's patterns. -/
def lowerChar (c : Char) : Char :=
  if 'A' ≤ c && c ≤ 'Z' then Char.ofNat (c.toNat + 32) else c

/-- ASCII lower-casing of a string. -/
def lowerStr (s : String) : String := ⟨s.data.map lowerChar⟩

/-- Case-insensitive substring test (models a `/.../i` regex with literal
alternatives). -/
def containsSubCI (s pat : String) : Bool :=
  containsSub (lowerStr s) (lowerStr pat)

/-- ASCII whitespace (the whitespace actually occurring in HTML text). -/
def isWS (c : Char) : Bool := c == ' ' || c == '\t' || c == '\n' || c == '\r'

/-- Trim leading and trailing whitespace from a character list. -/
def trimL (l : List Char) : List Char :=
  ((l.dropWhile isWS).reverse.dropWhile isWS).reverse

/-- JS `String.prototype.trim` (ASCII-whitespace model). -/
def trimStr (s : String) : String := ⟨trimL s.data⟩

/-- JS `s.length` (code-point model of UTF-16 length; the engine's inputs
are Basic-Multilingual-Plane text where the two coincide). -/
def strLen (s : String) : Nat := s.data.length

/-- Split a character list at every occurrence of `sep`; always returns at
least one (possibly empty) group. -/
def splitOnCharL (sep : Char) : List Char → List (List Char)
  | [] => [[]]
  | c :: cs =>
    if c = sep then [] :: splitOnCharL sep cs
    else
      match splitOnCharL sep cs with
      | [] => [[c]]
      | g :: gs => (c :: g) :: gs

/-- Split a string on a separator character (models `String.prototype.split`
with a one-character separator). -/
def splitOnChar (sep : Char) (s : String) : List String :=
  (splitOnCharL sep s.data).map (fun l => (⟨l⟩ : String))

/-- Whitespace-separated tokens of a string (models `classList` token
membership via the `class` attribute). -/
def wsTokens (s : String) : List String :=
  ((splitOnCharL ' ' (s.data.map (fun c => if isWS c then ' ' else c))).filter
    (fun l => !l.isEmpty)).map (fun l => (⟨l⟩ : String))

/-- First `n` characters of a string (models `String.prototype.substring(0, n)`). -/
def takeStr (n : Nat) (s : String) : String := ⟨s.data.take n⟩

/-- `s.startsWith pat` on the character-list model. -/
def startsWith (s pat : String) : Bool := isPrefixL pat.data s.data

/-! ### URL resolution model

`sanitizeClone` calls the platform's `new URL(value, baseUrl).toString()`
and keeps the original value when the constructor throws.  We model the
hierarchical (`scheme://host/path`) fragment of the WHATWG URL algorithm
that the extractor exercises: scheme and host parsing, root-relative and
path-relative resolution with dot-segment removal, protocol-relative
(`//host`) references, and canonical serialization (a URL with an empty
path serializes with a trailing `/`).  Queries, fragments, userinfo, ports,
percent-encoding and case normalization are outside the model's scope. -/

/-- Scheme characters (ASCII letters; the engine's URLs use plain schemes). -/
def isSchemeChar (c : Char) : Bool := c.isAlpha

/-- A parsed hierarchical URL. -/
structure Url where
  scheme : List Char
  host : List Char
  segs : List (List Char)

/-- Dot-segment removal (`.` dropped, `..` pops the previous segment), with
an explicit output accumulator kept in reverse order. -/
def normSegsAux : List (List Char) → List (List Char) → List (List Char)
  | acc, [] => acc.reverse
  | acc, s :: rest =>
    if s = ['.'] then normSegsAux acc rest
    else if s = ['.', '.'] then normSegsAux acc.tail rest
    else normSegsAux (s :: acc) rest

/-- Dot-segment removal over a segment list. -/
def normSegs (l : List (List Char)) : List (List Char) := normSegsAux [] l

/-- Path segments of the part following the host (`""` or starting with
`/`). -/
def pathSegs : List Char → List (List Char)
  | [] => []
  | _ :: rest => splitOnCharL '/' rest

/-- Parse an absolute `scheme://host/path` URL. -/
def parseAbsL (l : List Char) : Option Url :=
  let sch := l.takeWhile isSchemeChar
  match l.drop sch.length with
  | ':' :: '/' :: '/' :: hp =>
    if sch.isEmpty then none
    else
      let host := hp.takeWhile (fun c => c != '/')
      if host.isEmpty then none
      else some ⟨sch, host, normSegs (pathSegs (hp.drop host.length))⟩
  | _ => none

/-- Join path segments with `/`. -/
def joinSegs : List (List Char) → List Char
  | [] => []
  | [s] => s
  | s :: rest => s ++ '/' :: joinSegs rest

/-- Canonical serialization: `scheme://host/` followed by the joined path
segments. -/
def serializeUrl (u : Url) : List Char :=
  u.scheme ++ (':' :: '/' :: '/' :: (u.host ++ ('/' :: joinSegs u.segs)))

/-- Does `v` start with `scheme:`?  Such a value is parsed as absolute and
never falls back to relative resolution. -/
def hasSchemeColon (v : List Char) : Bool :=
  let sch := v.takeWhile isSchemeChar
  !sch.isEmpty && (v.drop sch.length).head? == some ':'

/-- Resolution of `v` against `base`, returning the serialized absolute URL
or `none` when parsing fails (the constructor's thrown `TypeError`). -/
def resolveL (v base : List Char) : Option (List Char) :=
  if hasSchemeColon v then (parseAbsL v).map serializeUrl
  else
    match parseAbsL base with
    | none => none
    | some b =>
      match v with
      | '/' :: '/' :: hp =>
        let host := hp.takeWhile (fun c => c != '/')
        if host.isEmpty then none
        else some (serializeUrl ⟨b.scheme, host, normSegs (pathSegs (hp.drop host.length))⟩)
      | '/' :: rest => some (serializeUrl ⟨b.scheme, b.host, normSegs (splitOnCharL '/' rest)⟩)
      | _ => some (serializeUrl ⟨b.scheme, b.host, normSegs (b.segs.dropLast ++ splitOnCharL '/' v)⟩)

/-- String-level model of `new URL(v, base).toString()`: `some` on success,
`none` when the constructor throws. -/
def resolveUrl (v base : String) : Option String :=
  (resolveL v.data base.data).map (fun l => (⟨l⟩ : String))

/-- Invariants of the `Url` records built by `parseAbsL` and `resolveL`. -/
structure UrlWf (u : Url) : Prop where
  scheme_ne : u.scheme ≠ []
  scheme_alpha : ∀ c ∈ u.scheme, isSchemeChar c = true
  host_ne : u.host ≠ []
  host_ok : ('/' : Char) ∉ u.host
  segs_slash : ∀ s ∈ u.segs, ('/' : Char) ∉ s
  segs_nodot : ∀ s ∈ u.segs, s ≠ ['.'] ∧ s ≠ ['.', '.']

theorem takeWhile_append_sat {p : Char → Bool} {a : List Char} {b : Char} {t : List Char}
    (ha : ∀ c ∈ a, p c = true) (hb : p b = false) :
    (a ++ b :: t).takeWhile p = a := by
  induction a with
  | nil => simp [List.takeWhile, hb]
  | cons c cs ih =>
    have hc : p c = true := ha c (by simp)
    simp only [List.cons_append, List.takeWhile, hc]
    exact congrArg (c :: ·) (ih (fun x hx => ha x (by simp [hx])))

theorem splitOnCharL_ne_nil (sep : Char) (l : List Char) : splitOnCharL sep l ≠ [] := by
  induction l with
  | nil => simp [splitOnCharL]
  | cons c cs ih =>
    by_cases h : c = sep
    · simp [splitOnCharL, h]
    · rw [splitOnCharL, if_neg h]
      rcases hs : splitOnCharL sep cs with _ | ⟨g, gs⟩ <;> simp

theorem mem_splitOnCharL_not_sep {sep : Char} {l : List Char} {s : List Char}
    (h : s ∈ splitOnCharL sep l) : sep ∉ s := by
  induction l generalizing s with
  | nil =>
    have : s = [] := by simpa [splitOnCharL] using h
    simp [this]
  | cons c cs ih =>
    by_cases hc : c = sep
    · rw [splitOnCharL, if_pos hc] at h
      rcases List.mem_cons.mp h with h | h
      · simp [h]
      · exact ih h
    · rw [splitOnCharL, if_neg hc] at h
      rcases hs : splitOnCharL sep cs with _ | ⟨g, gs⟩
      · exact absurd hs (splitOnCharL_ne_nil sep cs)
      · rw [hs] at h
        rcases List.mem_cons.mp h with h | h
        · subst h
          intro hm
          rcases List.mem_cons.mp hm with hm | hm
          · exact hc hm.symm
          · exact ih (hs ▸ List.mem_cons_self g gs) hm
        · exact ih (hs ▸ List.mem_cons_of_mem g h)

theorem splitOnCharL_nosep {sep : Char} {a : List Char} (h : sep ∉ a) :
    splitOnCharL sep a = [a] := by
  induction a with
  | nil => rfl
  | cons c cs ih =>
    have hc : ¬ c = sep := fun hcc => h (by simp [hcc])
    have := ih (fun hm => h (List.mem_cons_of_mem c hm))
    simp [splitOnCharL, hc, this]

theorem splitOnCharL_append_sepcons {sep : Char} {a t : List Char} (h : sep ∉ a) :
    splitOnCharL sep (a ++ sep :: t) = a :: splitOnCharL sep t := by
  induction a with
  | nil => simp [splitOnCharL]
  | cons c cs ih =>
    have hc : ¬ c = sep := fun hcc => h (by simp [hcc])
    have := ih (fun hm => h (List.mem_cons_of_mem c hm))
    simp [splitOnCharL, hc, this]

theorem split_join {l : List (List Char)} (hs : ∀ s ∈ l, ('/' : Char) ∉ s) (hne : l ≠ []) :
    splitOnCharL '/' (joinSegs l) = l := by
  induction l with
  | nil => exact absurd rfl hne
  | cons s rest ih =>
    rcases rest with _ | ⟨x, xs⟩
    · exact splitOnCharL_nosep (hs s (by simp))
    · have h1 : joinSegs (s :: x :: xs) = s ++ '/' :: joinSegs (x :: xs) := rfl
      rw [h1, splitOnCharL_append_sepcons (hs s (by simp)),
        ih (fun y hy => hs y (List.mem_cons_of_mem s hy)) (by simp)]

/-- Predicate: no dot segments. -/
def NodotL (l : List (List Char)) : Prop :=
  ∀ s ∈ l, s ≠ ['.'] ∧ s ≠ ['.', '.']

theorem mem_normSegsAux {acc l : List (List Char)} {s : List Char}
    (h : s ∈ normSegsAux acc l) :
    s ∈ acc ∨ (s ∈ l ∧ s ≠ ['.'] ∧ s ≠ ['.', '.']) := by
  induction l generalizing acc with
  | nil =>
    simp only [normSegsAux, List.mem_reverse] at h; exact Or.inl h
  | cons x rest ih =>
    by_cases h1 : x = ['.']
    · simp only [normSegsAux, h1, if_pos rfl] at h
      rcases ih h with h | h
      · exact Or.inl h
      · exact Or.inr ⟨List.mem_cons_of_mem _ h.1, h.2⟩
    · by_cases h2 : x = ['.', '.']
      · simp only [normSegsAux, if_neg h1, h2, if_pos rfl] at h
        rcases ih h with h | h
        · exact Or.inl (List.tail_subset acc h)
        · exact Or.inr ⟨List.mem_cons_of_mem _ h.1, h.2⟩
      · simp only [normSegsAux, if_neg h1, if_neg h2] at h
        rcases ih h with h | h
        · rcases List.mem_cons.mp h with h | h
          · subst h; exact Or.inr ⟨by simp, h1, h2⟩
          · exact Or.inl h
        · exact Or.inr ⟨List.mem_cons_of_mem _ h.1, h.2⟩

theorem normSegs_nodot (l : List (List Char)) : NodotL (normSegs l) := by
  intro s hs
  rcases mem_normSegsAux hs with h | h
  · simp at h
  · exact h.2

theorem normSegs_slash {l : List (List Char)} (h : ∀ s ∈ l, ('/' : Char) ∉ s) :
    ∀ s ∈ normSegs l, ('/' : Char) ∉ s := by
  intro s hs
  rcases mem_normSegsAux hs with hm | hm
  · simp at hm
  · exact h s hm.1

theorem normSegsAux_fixed {l : List (List Char)} (h : NodotL l) (acc : List (List Char)) :
    normSegsAux acc l = acc.reverse ++ l := by
  induction l generalizing acc with
  | nil => simp [normSegsAux]
  | cons x rest ih =>
    have hx := h x (by simp)
    have hrest : NodotL rest := fun s hs => h s (List.mem_cons_of_mem x hs)
    simp only [normSegsAux, if_neg hx.1, if_neg hx.2]
    rw [ih hrest]
    simp

theorem normSegs_fixed {l : List (List Char)} (h : NodotL l) : normSegs l = l := by
  simpa using normSegsAux_fixed h []

theorem pathSegs_slash (l : List Char) : ∀ s ∈ pathSegs l, ('/' : Char) ∉ s := by
  cases l with
  | nil => simp [pathSegs]
  | cons c rest => exact fun s hs => mem_splitOnCharL_not_sep hs

theorem takeWhile_ne_slash (hp : List Char) :
    ('/' : Char) ∉ hp.takeWhile (fun c => c != '/') := by
  intro hmem
  have := List.mem_takeWhile_imp hmem
  simp at this

/-- Building a well-formed URL from raw parts. -/
theorem wf_mk {sch host : List Char} {raw : List (List Char)}
    (h1 : sch ≠ []) (h2 : ∀ c ∈ sch, isSchemeChar c = true)
    (h3 : host ≠ []) (h4 : ('/' : Char) ∉ host)
    (h5 : ∀ s ∈ raw, ('/' : Char) ∉ s) :
    UrlWf ⟨sch, host, normSegs raw⟩ :=
  ⟨h1, h2, h3, h4, normSegs_slash h5, fun s hs => normSegs_nodot raw s hs⟩

theorem parseAbsL_wf {l : List Char} {u : Url} (h : parseAbsL l = some u) : UrlWf u := by
  simp only [parseAbsL] at h
  split at h
  · rename_i hp heq
    by_cases h1 : (l.takeWhile isSchemeChar).isEmpty
    · rw [if_pos h1] at h; exact absurd h (by simp)
    · rw [if_neg h1] at h
      by_cases h2 : (hp.takeWhile (fun c => c != '/')).isEmpty
      · rw [if_pos h2] at h; exact absurd h (by simp)
      · rw [if_neg h2] at h
        injection h with h
        subst h
        exact wf_mk (by simpa using h1) (fun c hc => List.mem_takeWhile_imp hc)
          (by simpa using h2) (takeWhile_ne_slash hp) (pathSegs_slash _)
  · exact absurd h (by simp)

theorem serializeUrl_takeWhile {u : Url} (hwf : UrlWf u) :
    (serializeUrl u).takeWhile isSchemeChar = u.scheme := by
  unfold serializeUrl
  exact takeWhile_append_sat hwf.scheme_alpha (by decide)

theorem serializeUrl_drop (u : Url) :
    (serializeUrl u).drop u.scheme.length =
      ':' :: '/' :: '/' :: (u.host ++ '/' :: joinSegs u.segs) := by
  unfold serializeUrl
  exact List.drop_left _ _

theorem host_takeWhile {u : Url} (hwf : UrlWf u) :
    (u.host ++ '/' :: joinSegs u.segs).takeWhile (fun c => c != '/') = u.host := by
  refine takeWhile_append_sat (fun c hc => ?_) (by decide)
  have : ¬ c = '/' := fun hcc => hwf.host_ok (hcc ▸ hc)
  simpa using this

theorem parse_serialize {u : Url} (hwf : UrlWf u) :
    ∃ u', parseAbsL (serializeUrl u) = some u' ∧ serializeUrl u' = serializeUrl u := by
  obtain ⟨sch, host, segs⟩ := u
  have htw := serializeUrl_takeWhile hwf
  have hdrop := serializeUrl_drop ⟨sch, host, segs⟩
  have hschemeF : sch.isEmpty = false := by simpa using hwf.scheme_ne
  have hhostF : host.isEmpty = false := by simpa using hwf.host_ne
  have hht := host_takeWhile hwf
  simp only [parseAbsL, htw, hdrop, hschemeF, Bool.false_eq_true, if_false, hht, hhostF,
    List.drop_left]
  rcases segs with _ | ⟨s, rest⟩
  · exact ⟨_, rfl, rfl⟩
  · refine ⟨_, rfl, ?_⟩
    have h1 : pathSegs ('/' :: joinSegs (s :: rest)) = splitOnCharL '/' (joinSegs (s :: rest)) := rfl
    rw [h1, split_join hwf.segs_slash (by simp), normSegs_fixed hwf.segs_nodot]

theorem serializeUrl_schemeColon {u : Url} (hwf : UrlWf u) :
    hasSchemeColon (serializeUrl u) = true := by
  have : (u.scheme).isEmpty = false := by simpa using hwf.scheme_ne
  simp only [hasSchemeColon, serializeUrl_takeWhile hwf, serializeUrl_drop, this]
  simp

theorem resolveL_wf {v b w : List Char} (h : resolveL v b = some w) :
    ∃ u, UrlWf u ∧ w = serializeUrl u := by
  unfold resolveL at h
  split at h
  · rcases hv : parseAbsL v with _ | u
    · rw [hv] at h; exact absurd h (by simp)
    · rw [hv] at h
      refine ⟨u, parseAbsL_wf hv, ?_⟩
      simpa using h.symm
  · split at h
    · exact absurd h (by simp)
    · rename_i b' hb
      have hbwf := parseAbsL_wf hb
      split at h
      · rename_i hp hns
        by_cases hh : (hp.takeWhile (fun c => c != '/')).isEmpty
        · rw [if_pos hh] at h; exact absurd h (by simp)
        · rw [if_neg hh] at h
          injection h with h
          exact ⟨_, wf_mk hbwf.scheme_ne hbwf.scheme_alpha (by simpa using hh)
            (takeWhile_ne_slash hp) (pathSegs_slash _), h.symm⟩
      · rename_i rest
        injection h with h
        exact ⟨_, wf_mk hbwf.scheme_ne hbwf.scheme_alpha hbwf.host_ne hbwf.host_ok
          (fun s hs => mem_splitOnCharL_not_sep hs), h.symm⟩
      · injection h with h
        refine ⟨_, wf_mk hbwf.scheme_ne hbwf.scheme_alpha hbwf.host_ne hbwf.host_ok
          (fun s hs => ?_), h.symm⟩
        rcases List.mem_append.mp hs with hs | hs
        · exact hbwf.segs_slash s (List.dropLast_subset _ hs)
        · exact mem_splitOnCharL_not_sep hs

theorem resolveL_roundtrip {v b w : List Char} (h : resolveL v b = some w) (b' : List Char) :
    resolveL w b' = some w := by
  obtain ⟨u, hwf, rfl⟩ := resolveL_wf h
  unfold resolveL
  rw [if_pos (serializeUrl_schemeColon hwf)]
  obtain ⟨u', hp, hs⟩ := parse_serialize hwf
  rw [hp]
  simp [hs]

/-- The key idempotence property of URL resolution: a resolved URL is a
fixed point of resolution against any base. -/
theorem resolveUrl_roundtrip {v b w : String} (h : resolveUrl v b = some w) (b' : String) :
    resolveUrl w b' = some w := by
  unfold resolveUrl at h ⊢
  rcases hr : resolveL v.data b.data with _ | l
  · rw [hr] at h; exact absurd h (by simp)
  · rw [hr] at h
    have hw : w = ⟨l⟩ := by simpa using h.symm
    subst hw
    rw [show (⟨l⟩ : String).data = l from rfl, resolveL_roundtrip hr b'.data]
    rfl

/-! ### The element-tree model

An HTML node is either a text node or an element with a tag (stored
lowercase, as produced by the HTML parser), an attribute list and a list of
children.  Attribute names are stored as-is; the DOM guarantees at most one
attribute per name, and all operations below read the first binding. -/

inductive Node where
  | text (s : String)
  | element (tag : String) (attrs : List (String × String)) (children : List Node)

/-- Children of a node (empty for text nodes). -/
def Node.children : Node → List Node
  | .text _ => []
  | .element _ _ cs => cs

/-- Lowercase tag of a node (`""` for text nodes). -/
def Node.tag : Node → String
  | .text _ => ""
  | .element t _ _ => t

/-- Attribute list of a node. -/
def Node.attrs : Node → List (String × String)
  | .text _ => []
  | .element _ a _ => a

/-- `getAttribute`: `some v` when the attribute is present, `none` when
absent (the DOM's `null`). -/
def Node.getAttr (n : Node) (name : String) : Option String :=
  (n.attrs.find? (fun p => p.1 == name)).map (·.2)

/-- JS `el.className || ''` (the `class` attribute, or the empty string). -/
def Node.className (n : Node) : String :=
  (n.getAttr "class").getD ""

/-- JS `el.id || ''` (the `id` attribute, or the empty string). -/
def Node.idStr (n : Node) : String :=
  (n.getAttr "id").getD ""

mutual

/-- `textContent`: concatenation of all text-node data in the subtree, in
document order. -/
def nodeText : Node → String
  | .text s => s
  | .element _ _ cs => forestText cs

/-- `textContent` of a forest of siblings. -/
def forestText : List Node → String
  | [] => ""
  | n :: ns => nodeText n ++ forestText ns

end

mutual

/-- All element nodes of a subtree in document (pre-)order, the root
included when it is an element. -/
def nodeElems : Node → List Node
  | .text _ => []
  | .element t a cs => .element t a cs :: forestElems cs

/-- All element nodes of a forest in document order. -/
def forestElems : List Node → List Node
  | [] => []
  | n :: ns => nodeElems n ++ forestElems ns

end

mutual

/-- Boolean structural equality on nodes. -/
def nodeBEq : Node → Node → Bool
  | .text s, .text t => s == t
  | .element t1 a1 c1, .element t2 a2 c2 => t1 == t2 && a1 == a2 && forestBEq c1 c2
  | _, _ => false

/-- Boolean structural equality on forests. -/
def forestBEq : List Node → List Node → Bool
  | [], [] => true
  | n :: ns, m :: ms => nodeBEq n m && forestBEq ns ms
  | _, _ => false

end

mutual

theorem nodeBEq_iff : ∀ a b : Node, nodeBEq a b = true ↔ a = b
  | .text s, .text t => by simp [nodeBEq]
  | .element t1 a1 c1, .element t2 a2 c2 => by
    simp [nodeBEq, forestBEq_iff c1 c2, and_assoc]
  | .text _, .element _ _ _ => by simp [nodeBEq]
  | .element _ _ _, .text _ => by simp [nodeBEq]

theorem forestBEq_iff : ∀ a b : List Node, forestBEq a b = true ↔ a = b
  | [], [] => by simp [forestBEq]
  | n :: ns, m :: ms => by simp [forestBEq, nodeBEq_iff n m, forestBEq_iff ns ms]
  | [], _ :: _ => by simp [forestBEq]
  | _ :: _, [] => by simp [forestBEq]

end

instance : DecidableEq Node := fun a b => decidable_of_iff _ (nodeBEq_iff a b)

/-- `el.querySelectorAll(sel)`-style descendant query: the element
descendants of `n` (excluding `n` itself) in document order that satisfy
`p`. -/
def Node.queryAll (n : Node) (p : Node → Bool) : List Node :=
  (forestElems n.children).filter p

/-- Does some strict element descendant of `n` satisfy `p`
(`el.querySelector(sel) !== null`)? -/
def Node.queryExists (n : Node) (p : Node → Bool) : Bool :=
  (forestElems n.children).any p


/-! ### Style parsing and the visibility filter -/

/-- Parse one `name: value` style declaration. -/
def parseDecl (s : String) : Option (String × String) :=
  match splitOnChar ':' s with
  | [n, v] => some (trimStr n, trimStr v)
  | _ => none

/-- CSSOM-style property read from the `style` attribute (`el.style.prop`):
the last declaration of the property wins. -/
def Node.styleProp (n : Node) (prop : String) : String :=
  let decls := (splitOnChar ';' ((n.getAttr "style").getD "")).filterMap parseDecl
  (((decls.filter (fun d => d.1 == prop)).getLast?).map Prod.snd).getD ""

/-- `isVisible` (extractor.ts 114–121): non-hidden and non-empty trimmed
text content. -/
def isVisible (el : Node) : Bool :=
  let textLength := strLen (trimStr (nodeText el))
  let hiddenByStyle := el.styleProp "display" == "none"
    || el.styleProp "visibility" == "hidden"
    || (el.getAttr "hidden").isSome
  !hiddenByStyle && decide (textLength > 0)

/-! ### Scoring -/

structure ScoreComponents where
  textLength : Nat
  paragraphCount : Nat
  linkRatio : ℚ
  headingBonus : ℚ
  semanticBoost : ℚ
  navPenalty : ℚ
  densityBonus : ℚ
  textScore : ℚ
  linkPenalty : ℚ
  total : ℚ
deriving DecidableEq, Repr

/-- The alternatives of `NAVY_RE` (extractor.ts 33). -/
def navyKeywords : List String :=
  ["nav", "breadcrumb", "menu", "footer", "header", "aside", "comment", "promo", "sidebar", "ad"]

/-- `NAVY_RE.test s`: case-insensitive substring match of any keyword. -/
def navyTest (s : String) : Bool := navyKeywords.any (fun k => containsSubCI s k)

/-- `scoreElement` (extractor.ts 123–152).  Note the source sums the
*untrimmed* `textContent.length` of each anchor. -/
def scoreElement (el : Node) : ScoreComponents :=
  let text := trimStr (nodeText el)
  let textLength := strLen text
  let paragraphCount := (el.queryAll (fun e => e.tag == "p")).length
  let linkTextLength : Nat :=
    ((el.queryAll (fun e => e.tag == "a")).map (fun a => strLen (nodeText a))).foldl (· + ·) 0
  let linkRatio : ℚ := if textLength = 0 then 0 else (linkTextLength : ℚ) / (textLength : ℚ)
  let headingBonus : ℚ :=
    if el.queryExists (fun e => e.tag == "h1" || e.tag == "h2") then 10 else 0
  let semanticBoost : ℚ := if el.tag == "article" || el.tag == "main" then 15 else 0
  let navPenalty : ℚ := if navyTest el.className || navyTest el.idStr then 20 else 0
  let densityBonus : ℚ := if paragraphCount ≥ 5 then 10 else (paragraphCount : ℚ) * (3/2)
  let linkPenalty : ℚ := linkRatio * 40
  let textScore : ℚ := (textLength : ℚ) / 120
  let total : ℚ := textScore + (paragraphCount : ℚ) * 3 + densityBonus + headingBonus
    + semanticBoost - linkPenalty - navPenalty
  ⟨textLength, paragraphCount, linkRatio, headingBonus, semanticBoost, navPenalty,
    densityBonus, textScore, linkPenalty, total⟩

/-! ### Sanitization -/

/-- `REMOVED_TAGS` (extractor.ts 34–47). -/
def REMOVED_TAGS : List String :=
  ["script", "style", "noscript", "iframe", "form", "input", "button", "select", "option",
   "textarea", "svg", "canvas"]

/-- `URL_ATTRS` (extractor.ts 49–54). -/
def urlAttrsOf (tag : String) : List String :=
  if tag == "img" then ["src"]
  else if tag == "a" then ["href"]
  else if tag == "video" then ["src", "poster"]
  else if tag == "source" then ["src"]
  else []

/-- The attribute-stripping loop over a snapshot of `el.attributes`
(extractor.ts 172–176): drop every attribute whose name starts with `on`
or equals `style`. -/
def stripAttrs (attrs : List (String × String)) : List (String × String) :=
  attrs.filter (fun p => !(startsWith p.1 "on" || p.1 == "style"))

/-- `setAttribute name w` on an attribute list (update in place; only
called on present attributes, mirroring the `hasAttribute` guard). -/
def setAttr (attrs : List (String × String)) (name w : String) : List (String × String) :=
  attrs.map (fun p => if p.1 == name then (p.1, w) else p)

/-- The URL-rewriting step for one attribute name (extractor.ts 180–191):
when present with a truthy (non-empty) value, replace by the resolution
against `baseUrl`; on resolution failure (the caught `TypeError`) keep the
original value. -/
def resolveAttr (baseUrl : String) (attrs : List (String × String)) (name : String) :
    List (String × String) :=
  match (attrs.find? (fun p => p.1 == name)).map Prod.snd with
  | none => attrs
  | some v =>
    if v == "" then attrs
    else
      match resolveUrl v baseUrl with
      | some w => setAttr attrs name w
      | none => attrs

/-- URL rewriting over `URL_ATTRS[tag]` (extractor.ts 178–192). -/
def resolveAttrs (baseUrl : String) (tag : String) (attrs : List (String × String)) :
    List (String × String) :=
  (urlAttrsOf tag).foldl (resolveAttr baseUrl) attrs

mutual

/-- Sanitization of one retained (non-root, safe-tagged) element: attribute
stripping, URL rewriting, recursion into children. -/
def sanNode (baseUrl : String) : Node → Node
  | .text s => .text s
  | .element t a cs => .element t (resolveAttrs baseUrl t (stripAttrs a)) (sanForest baseUrl cs)

/-- Net effect of the sanitizing walk plus deferred removals on the forest
below the root: an element with an unsafe tag is dropped with its whole
subtree; every other element has its attributes stripped and URL attributes
resolved, and its children processed recursively; text nodes pass through
(the walker shows elements only). -/
def sanForest (baseUrl : String) : List Node → List Node
  | [] => []
  | .text s :: ns => .text s :: sanForest baseUrl ns
  | .element t a cs :: ns =>
    if REMOVED_TAGS.contains t then sanForest baseUrl ns
    else sanNode baseUrl (.element t a cs) :: sanForest baseUrl ns

end

/-- `sanitizeClone` (extractor.ts 158–197).  `cloneNode(true)` is a deep
copy, the value itself in this model.  The `while (walker.nextNode())` loop
never yields the walker's root, so the root element's own attributes are
left untouched and its tag is never tested against `REMOVED_TAGS`; the
deferred `toRemove` pass detaches each marked element with its subtree. -/
def sanitizeClone (element : Node) (baseUrl : String) : Node :=
  match element with
  | .text s => .text s
  | .element t a cs => .element t a (sanForest baseUrl cs)

/-! ### Cleanup classifiers (`cleanupExtractedContent`, extractor.ts 203–390) -/

def navPatternsTest (s : String) : Bool :=
  ["siteheader", "site-header", "siteheadermasthead", "siteheadernavigation"].any
    (fun k => containsSubCI s k)

def isNavigation (el : Node) : Bool :=
  (el.tag == "header" && (el.idStr == "site-nav" || el.getAttr "section" == some "nav"))
  || (el.tag == "nav" && (el.getAttr "section" == some "top"
       || el.getAttr "aria-label" == some "site"))
  || el.getAttr "data-location" == some "HEADER"
  || (el.getAttr "section" == some "nav" && el.tag != "article" && el.tag != "main")
  || navPatternsTest el.className || navPatternsTest el.idStr

def footerPatternsTest (s : String) : Bool :=
  ["cat-footer", "site-footer", "main-footer", "page-footer"].any (fun k => containsSubCI s k)

def isFooter (el : Node) : Bool :=
  el.tag == "footer" || el.getAttr "data-location" == some "FOOTER"
  || footerPatternsTest el.className || footerPatternsTest el.idStr

/-- `/^(guides?|related|recommended|you may also|read more|similar)/i` on an
already-lowercased string. -/
def relatedHeadingTest (s : String) : Bool :=
  ["guide", "related", "recommended", "you may also", "read more", "similar"].any
    (fun k => startsWith s k)

def isRelatedContent (el : Node) : Bool :=
  let linkCount := (el.queryAll (fun e => e.tag == "a")).length
  let paragraphCount := (el.queryAll (fun e => e.tag == "p")).length
  (["bestlistlinkblock", "articlelinkblock"].any (fun k => containsSubCI el.className k))
  || (relatedHeadingTest (takeStr 50 (trimStr (lowerStr (nodeText el))))
      && decide (linkCount > 5) && decide (paragraphCount < linkCount)
      && decide (linkCount > paragraphCount * 2))

def isVideoPlayer (el : Node) : Bool :=
  el.getAttr "data-video-location" == some "MODAL"
  || el.getAttr "data-video-article-placement" == some "Watch and Read"
  || containsSub el.className "c-avStickyVideo"
  || containsSub el.className "c-CnetAvStickyVideo"
  || el.tag == "video-js"
  || (containsSub el.className "vjs-" && !containsSub el.className "c-avVideo"
      && !containsSub el.className "c-avStickyVideo")

def adPatternsTest (s : String) : Bool :=
  ["adDisplay", "adContainer", "advertisement", "ad-slot", "ad-unit", "adSkyBox"].any
    (fun k => containsSubCI s k)

/-- Note `if (dataAd || dataAdCallout)`: a present-but-empty attribute is
falsy in JS, so only non-empty values count. -/
def isAdContainer (el : Node) : Bool :=
  (el.getAttr "data-ad").getD "" != "" || (el.getAttr "data-ad-callout").getD "" != ""
  || adPatternsTest el.className

def isArticleMeta (el : Node) : Bool :=
  containsSub el.className "c-articleHeader_metaContainer"
  || containsSub el.className "c-articleHeader_meta"
  || containsSub el.className "c-topicBreadcrumbs"

def isAuthorCard (el : Node) : Bool :=
  containsSub el.className "c-globalAuthorImage"
  || containsSub el.className "c-globalAuthorCard"
  || el.getAttr "section" == some "authorCard"
  || el.getAttr "data-cy" == some "globalAuthorImage"

def isScreenReaderTitle (el : Node) : Bool :=
  containsSub el.className "sr-title" || (wsTokens el.className).contains "sr-title"

/-- The disjunction of the eight classifiers checked during the cleanup
walk. -/
def isNoise (el : Node) : Bool :=
  isNavigation el || isFooter el || isRelatedContent el || isVideoPlayer el
  || isAdContainer el || isArticleMeta el || isAuthorCard el || isScreenReaderTitle el

/-- `.sr-title` class-selector match (a `classList` token). -/
def srTitleMatch (el : Node) : Bool := (wsTokens el.className).contains "sr-title"

mutual

/-- Phase-1 recursion into one kept node. -/
def removeSrNode : Node → Node
  | .text s => .text s
  | .element t a cs => .element t a (removeSrForest cs)

/-- Phase 1 of the cleanup: remove every `.sr-title` descendant (the query
never yields the root). -/
def removeSrForest : List Node → List Node
  | [] => []
  | .text s :: ns => .text s :: removeSrForest ns
  | .element t a cs :: ns =>
    if srTitleMatch (.element t a cs) then removeSrForest ns
    else removeSrNode (.element t a cs) :: removeSrForest ns

end

mutual

/-- Phase-2 recursion into one kept node. -/
def cleanNode : Node → Node
  | .text s => .text s
  | .element t a cs => .element t a (cleanForest cs)

/-- Phase 2: the mark-then-sweep walk below the root.  Classifiers are
evaluated on the unmutated (phase-1) tree — removal is strictly deferred to
the batch pass — so a dropped element is classified on its original
subtree. -/
def cleanForest : List Node → List Node
  | [] => []
  | .text s :: ns => .text s :: cleanForest ns
  | .element t a cs :: ns =>
    if isNoise (.element t a cs) then cleanForest ns
    else cleanNode (.element t a cs) :: cleanForest ns

end

/-- `cleanupExtractedContent` (extractor.ts 203–390): the root is skipped
(`el === element` continue), its children get phase 1 then phase 2. -/
def cleanupExtractedContent (element : Node) : Node :=
  match element with
  | .text s => .text s
  | .element t a cs => .element t a (cleanForest (removeSrForest cs))

/-! ### Serialization (`innerHTML`) -/

/-- HTML text-node escaping used by the `innerHTML` serializer. -/
def escTextChar (c : Char) : List Char :=
  if c = '&' then "&amp;".data
  else if c = '<' then "&lt;".data
  else if c = '>' then "&gt;".data
  else [c]

/-- HTML attribute-value escaping used by the `innerHTML` serializer. -/
def escAttrChar (c : Char) : List Char :=
  if c = '&' then "&amp;".data
  else if c = '"' then "&quot;".data
  else [c]

/-- The HTML void elements, serialized without children or end tag. -/
def VOID_TAGS : List String :=
  ["area", "base", "br", "col", "embed", "hr", "img", "input", "link", "meta", "source",
   "track", "wbr"]

mutual

/-- HTML fragment serialization of one node. -/
def serializeNode : Node → String
  | .text s => ⟨s.data.flatMap escTextChar⟩
  | .element t a cs =>
    let attrsStr := a.foldl
      (fun acc p => acc ++ " " ++ p.1 ++ "=\"" ++ (⟨p.2.data.flatMap escAttrChar⟩ : String) ++ "\"") ""
    if VOID_TAGS.contains t then "<" ++ t ++ attrsStr ++ ">"
    else "<" ++ t ++ attrsStr ++ ">" ++ serializeForest cs ++ "</" ++ t ++ ">"

/-- HTML fragment serialization of a sibling forest. -/
def serializeForest : List Node → String
  | [] => ""
  | n :: ns => serializeNode n ++ serializeForest ns

end

/-- `el.innerHTML`: serialization of the children (the element's own tag
and attributes are not part of it). -/
def innerHTML (el : Node) : String := serializeForest el.children

/-! ### The orchestrator (`extractArticle`, extractor.ts 59–112) -/

/-- A document handle: the root element plus `document.location?.href`. -/
structure Document where
  root : Node
  locationHref : Option String

/-- `ExtractOptions` (extractor.ts 1–4). -/
structure ExtractOptions where
  threshold : Option ℚ := none
  baseUrl : Option String := none

/-- `ExtractResult` (extractor.ts 6–18): `unavailable` carries an optional
confidence; the extracted variant always carries `reason = "ok"`. -/
inductive ExtractResult where
  | unavailable (reason : String) (confidence : Option ℚ)
  | extracted (html text : String) (confidence : ℚ) (reason : String)
deriving DecidableEq, Repr

/-- A scored candidate (extractor.ts 70–73). -/
structure Candidate where
  el : Node
  scores : ScoreComponents
  total : ℚ
deriving DecidableEq

/-- `CANDIDATE_SELECTOR = 'article, main, div, section'` (tag selectors). -/
def CANDIDATE_TAGS : List String := ["article", "main", "div", "section"]

/-- `MIN_TEXT_LENGTH` (extractor.ts 57). -/
def MIN_TEXT_LENGTH : Nat := 150

/-- `document.querySelectorAll(CANDIDATE_SELECTOR)`: every element of the
document (root included) whose tag is in the selector, in document order. -/
def docCandidates (doc : Document) : List Node :=
  (nodeElems doc.root).filter (fun el => CANDIDATE_TAGS.contains el.tag)

/-- Steps 1–4 of `extractArticle`: collect, filter visible, score, apply
the minimum-size gate (`textLength ≥ 150` OR `paragraphCount ≥ 2`). -/
def candidatesOf (doc : Document) : List Candidate :=
  (((docCandidates doc).filter isVisible).map
      (fun el => ({ el := el, scores := scoreElement el, total := (scoreElement el).total } : Candidate))).filter
    (fun c => decide (c.scores.textLength ≥ MIN_TEXT_LENGTH) || decide (c.scores.paragraphCount ≥ 2))

/-- Stable descending insertion: a candidate moves before the first
strictly-smaller total, so equal totals keep their original order. -/
def insertDesc (c : Candidate) : List Candidate → List Candidate
  | [] => [c]
  | d :: ds => if c.total ≥ d.total then c :: d :: ds else d :: insertDesc c ds

/-- `candidates.sort((a, b) => b.total - a.total)`: ECMAScript 2019 requires
`Array.prototype.sort` to be stable, and a stable sort under a total
preorder has a unique result, so any stable sorting algorithm is the same
function; we embed it as a stable insertion sort. -/
def sortDesc : List Candidate → List Candidate
  | [] => []
  | c :: cs => insertDesc c (sortDesc cs)

/-- `Number(confidence.toFixed(3))`: rounding to three decimal places
(`toFixed` picks the larger candidate on ties). -/
def round3 (q : ℚ) : ℚ := (⌊q * 1000 + 1/2⌋ : ℤ) / 1000

/-- `extractArticle` (extractor.ts 59–112).  `conf` is the confidence
normalizer `normalizeConfidence = Math.tanh (score / 80)`; `tanh` being
transcendental, the embedding takes the normalizer as an explicit
parameter, and claims that need analytic facts about `tanh` (sign, strict
monotonicity) assume them as hypotheses about `conf`. -/
def extractArticle (conf : ℚ → ℚ) (doc : Document) (options : ExtractOptions) : ExtractResult :=
  let threshold := options.threshold.getD (7/20)
  let baseUrl := options.baseUrl.getD (doc.locationHref.getD "http://localhost/")
  let candidates := candidatesOf doc
  if candidates.isEmpty then .unavailable "No viable candidates found" none
  else
    match sortDesc candidates with
    | [] => .unavailable "No viable candidates found" none
    | top :: _ =>
      let confidence := conf top.total
      if confidence < threshold then .unavailable "Confidence below threshold" (some confidence)
      else
        let sanitized := sanitizeClone top.el baseUrl
        let cleaned := cleanupExtractedContent sanitized
        let html := trimStr (innerHTML cleaned)
        let text := trimStr (nodeText cleaned)
        if html == "" || decide (strLen text < MIN_TEXT_LENGTH) then
          .unavailable "Extracted content too small" (some confidence)
        else .extracted html text (round3 confidence) "ok"

/-! ### Spec-side definitions and claim theorems -/

/-- Spec reading of `linkTextLength` (§4.2): the sum of the **trimmed**
text length inside every descendant anchor element. -/
def specLinkTextLength (el : Node) : Nat :=
  ((el.queryAll (fun e => e.tag == "a")).map
    (fun a => strLen (trimStr (nodeText a)))).foldl (· + ·) 0

/-- The `linkRatio` the claim derives from the spec's trimmed
`linkTextLength`. -/
def specLinkRatio (el : Node) : ℚ :=
  if (scoreElement el).textLength = 0 then 0
  else (specLinkTextLength el : ℚ) / (((scoreElement el).textLength : ℕ) : ℚ)

/-- The `linkTextLength` the code actually computes (extractor.ts 127–130):
the sum of the **raw** (untrimmed) `textContent.length` of every descendant
anchor. -/
def codeLinkTextLength (el : Node) : Nat :=
  ((el.queryAll (fun e => e.tag == "a")).map (fun a => strLen (nodeText a))).foldl (· + ·) 0

/-- C1 counterexample: on `<div><a> ab </a></div>` the trimmed anchor text
has length 2 while the code sums the untrimmed length 4, so the claimed
`linkRatio = trimmedLinkTextLength / textLength` fails (the code yields
ratio 2, the claim predicts 1). -/
theorem c1_counterexample :
    (scoreElement (.element "div" [] [.element "a" [] [.text " ab "]])).linkRatio ≠
      specLinkRatio (.element "div" [] [.element "a" [] [.text " ab "]]) := by
  with_unfolding_all decide

/-- C1 (amended): `scoreElement` returns exactly the spec formula's
components, except that `linkTextLength` is the sum of the **untrimmed**
`textContent` length of every descendant anchor: `linkRatio` is that sum
over `textLength` (0 when `textLength` is 0), `densityBonus` is 10 when
`paragraphCount ≥ 5` and `paragraphCount × 1.5` otherwise, and `total` is
`textLength/120 + paragraphCount×3 + densityBonus + headingBonus +
semanticBoost − linkRatio×40 − navPenalty`. -/
theorem c1_score_components (el : Node) :
    (scoreElement el).linkRatio =
      (if (scoreElement el).textLength = 0 then 0
       else (codeLinkTextLength el : ℚ) / (((scoreElement el).textLength : ℕ) : ℚ)) ∧
    (scoreElement el).densityBonus =
      (if (scoreElement el).paragraphCount ≥ 5 then 10
       else ((scoreElement el).paragraphCount : ℚ) * (3/2)) ∧
    (scoreElement el).total =
      ((scoreElement el).textLength : ℚ) / 120 + ((scoreElement el).paragraphCount : ℚ) * 3
        + (scoreElement el).densityBonus + (scoreElement el).headingBonus
        + (scoreElement el).semanticBoost - (scoreElement el).linkRatio * 40
        - (scoreElement el).navPenalty :=
  ⟨rfl, rfl, rfl⟩

theorem insertDesc_ne_nil (c : Candidate) (l : List Candidate) : insertDesc c l ≠ [] := by
  cases l with
  | nil => simp [insertDesc]
  | cons d ds => unfold insertDesc; split <;> simp

theorem sortDesc_eq_nil_iff (l : List Candidate) : sortDesc l = [] ↔ l = [] := by
  cases l with
  | nil => simp [sortDesc]
  | cons c cs => simp [sortDesc, insertDesc_ne_nil]

/-- The surviving-candidate list is empty exactly when no selector-matching
element is visible and passes the minimum-size OR-gate. -/
theorem candidatesOf_eq_nil_iff (doc : Document) :
    candidatesOf doc = [] ↔
      ¬ ∃ el ∈ docCandidates doc, isVisible el = true ∧
        ((scoreElement el).textLength ≥ MIN_TEXT_LENGTH ∨
          (scoreElement el).paragraphCount ≥ 2) := by
  simp only [candidatesOf, List.filter_eq_nil_iff, List.mem_map, List.mem_filter,
    Bool.or_eq_true, decide_eq_true_eq]
  constructor
  · rintro h ⟨el, hel, hvis, hgate⟩
    exact h _ ⟨el, ⟨hel, hvis⟩, rfl⟩ hgate
  · rintro h a ⟨el, ⟨hel, hvis⟩, rfl⟩ hgate
    exact h ⟨el, hel, hvis, hgate⟩

/-- C2: `extractArticle` returns `Unavailable` with reason
`"No viable candidates found"` and no confidence value exactly when no
element matching the candidate selector is both visible and passes the
minimum-size gate (`textLength ≥ 150` OR `paragraphCount ≥ 2`). -/
theorem c2_no_viable_iff (conf : ℚ → ℚ) (doc : Document) (opts : ExtractOptions) :
    extractArticle conf doc opts = .unavailable "No viable candidates found" none ↔
      ¬ ∃ el ∈ docCandidates doc, isVisible el = true ∧
        ((scoreElement el).textLength ≥ MIN_TEXT_LENGTH ∨
          (scoreElement el).paragraphCount ≥ 2) := by
  rw [← candidatesOf_eq_nil_iff]
  unfold extractArticle
  by_cases h : (candidatesOf doc).isEmpty
  · have hnil : candidatesOf doc = [] := by simpa using h
    simp [h, hnil]
  · have hne : candidatesOf doc ≠ [] := by simpa using h
    rw [if_neg (by simpa using h)]
    split
    · rename_i heq
      exact absurd ((sortDesc_eq_nil_iff _).mp heq) hne
    · rename_i top rest heq
      constructor
      · intro hres
        exfalso
        dsimp only at hres
        split at hres
        · exact absurd hres (by simp)
        · split at hres
          · exact absurd hres (by simp)
          · exact absurd hres (by simp)
      · intro hnil
        exact absurd hnil hne

/-- Attribute-list safety: no `on…`-prefixed attribute name and no `style`
attribute. -/
def attrsClean (a : List (String × String)) : Bool :=
  a.all (fun p => !startsWith p.1 "on" && p.1 != "style")

mutual

/-- Node safety: no unsafe tag, clean attributes, safe children. -/
def safeNode : Node → Bool
  | .text _ => true
  | .element t a cs => !REMOVED_TAGS.contains t && attrsClean a && safeForest cs

/-- Forest safety. -/
def safeForest : List Node → Bool
  | [] => true
  | n :: ns => safeNode n && safeForest ns

end

theorem attrsClean_stripAttrs (a : List (String × String)) :
    attrsClean (stripAttrs a) = true := by
  simp only [attrsClean, stripAttrs, List.all_eq_true, List.mem_filter]
  rintro p ⟨hmem, hp⟩
  simp only [Bool.not_or, Bool.and_eq_true] at hp
  rw [Bool.and_eq_true]
  exact ⟨hp.1, hp.2⟩

theorem attrsClean_setAttr {a : List (String × String)} (h : attrsClean a = true)
    (n w : String) : attrsClean (setAttr a n w) = true := by
  simp only [attrsClean, setAttr, List.all_map, List.all_eq_true, Function.comp] at *
  intro p hp
  have hx := h p hp
  by_cases hn : p.1 == n <;> simp [hn] <;> simpa using hx

theorem attrsClean_resolveAttr {a : List (String × String)} (h : attrsClean a = true)
    (b n : String) : attrsClean (resolveAttr b a n) = true := by
  unfold resolveAttr
  split
  · exact h
  · split
    · exact h
    · split
      · exact attrsClean_setAttr h _ _
      · exact h

theorem attrsClean_resolveAttrs {a : List (String × String)} (h : attrsClean a = true)
    (b t : String) : attrsClean (resolveAttrs b t a) = true := by
  unfold resolveAttrs
  generalize urlAttrsOf t = names
  induction names generalizing a with
  | nil => exact h
  | cons n ns ih =>
    rw [List.foldl_cons]
    exact ih (attrsClean_resolveAttr h b n)

theorem sanForest_cons_removed {t : String} (ht : REMOVED_TAGS.contains t = true)
    (b : String) (a : List (String × String)) (cs ns : List Node) :
    sanForest b (.element t a cs :: ns) = sanForest b ns := by
  have h0 : sanForest b (.element t a cs :: ns)
      = if REMOVED_TAGS.contains t = true then sanForest b ns
        else sanNode b (.element t a cs) :: sanForest b ns := rfl
  rw [h0, if_pos ht]

theorem sanForest_cons_kept {t : String} (ht : REMOVED_TAGS.contains t = false)
    (b : String) (a : List (String × String)) (cs ns : List Node) :
    sanForest b (.element t a cs :: ns) =
      .element t (resolveAttrs b t (stripAttrs a)) (sanForest b cs) :: sanForest b ns := by
  have h0 : sanForest b (.element t a cs :: ns)
      = if REMOVED_TAGS.contains t = true then sanForest b ns
        else sanNode b (.element t a cs) :: sanForest b ns := rfl
  rw [h0, if_neg (by rw [ht]; simp)]
  rfl

theorem safeForest_sanForest (b : String) : ∀ l : List Node, safeForest (sanForest b l) = true
  | [] => rfl
  | .text s :: ns => by
    have h2 := safeForest_sanForest b ns
    simp [sanForest, safeForest, safeNode, h2]
  | .element t a cs :: ns => by
    have h2 := safeForest_sanForest b ns
    by_cases ht : REMOVED_TAGS.contains t = true
    · rw [sanForest_cons_removed ht]; exact h2
    · have htf : REMOVED_TAGS.contains t = false := by simpa using ht
      rw [sanForest_cons_kept htf]
      have h1 := safeForest_sanForest b cs
      have htm : t ∉ REMOVED_TAGS := by simpa using htf
      simp [safeForest, safeNode, htm,
        attrsClean_resolveAttrs (attrsClean_stripAttrs a) b t, h1, h2]

theorem removeSr_cons_matched {t : String} {a : List (String × String)} {cs ns : List Node}
    (hm : srTitleMatch (.element t a cs) = true) :
    removeSrForest (.element t a cs :: ns) = removeSrForest ns := by
  have h0 : removeSrForest (.element t a cs :: ns)
      = if srTitleMatch (.element t a cs) = true then removeSrForest ns
        else removeSrNode (.element t a cs) :: removeSrForest ns := rfl
  rw [h0, if_pos hm]

theorem removeSr_cons_kept {t : String} {a : List (String × String)} {cs ns : List Node}
    (hm : srTitleMatch (.element t a cs) = false) :
    removeSrForest (.element t a cs :: ns) =
      .element t a (removeSrForest cs) :: removeSrForest ns := by
  have h0 : removeSrForest (.element t a cs :: ns)
      = if srTitleMatch (.element t a cs) = true then removeSrForest ns
        else removeSrNode (.element t a cs) :: removeSrForest ns := rfl
  rw [h0, if_neg (by rw [hm]; simp)]
  rfl

theorem clean_cons_noise {t : String} {a : List (String × String)} {cs ns : List Node}
    (hm : isNoise (.element t a cs) = true) :
    cleanForest (.element t a cs :: ns) = cleanForest ns := by
  have h0 : cleanForest (.element t a cs :: ns)
      = if isNoise (.element t a cs) = true then cleanForest ns
        else cleanNode (.element t a cs) :: cleanForest ns := rfl
  rw [h0, if_pos hm]

theorem clean_cons_kept {t : String} {a : List (String × String)} {cs ns : List Node}
    (hm : isNoise (.element t a cs) = false) :
    cleanForest (.element t a cs :: ns) =
      .element t a (cleanForest cs) :: cleanForest ns := by
  have h0 : cleanForest (.element t a cs :: ns)
      = if isNoise (.element t a cs) = true then cleanForest ns
        else cleanNode (.element t a cs) :: cleanForest ns := rfl
  rw [h0, if_neg (by rw [hm]; simp)]
  rfl

theorem safeForest_removeSrForest : ∀ {l : List Node}, safeForest l = true →
    safeForest (removeSrForest l) = true
  | [], _ => rfl
  | .text s :: ns, h => by
    simp only [safeForest, safeNode, Bool.true_and] at h
    simp [removeSrForest, safeForest, safeNode, safeForest_removeSrForest h]
  | .element t a cs :: ns, h => by
    simp only [safeForest, safeNode, Bool.and_eq_true] at h
    obtain ⟨⟨⟨ht, ha⟩, hcs⟩, hns⟩ := h
    by_cases hm : srTitleMatch (.element t a cs) = true
    · rw [removeSr_cons_matched hm]; exact safeForest_removeSrForest hns
    · rw [removeSr_cons_kept (by simpa using hm)]
      have htm : t ∉ REMOVED_TAGS := by simpa using ht
      simp [safeForest, safeNode, htm, ha,
        safeForest_removeSrForest hcs, safeForest_removeSrForest hns]

theorem safeForest_cleanForest : ∀ {l : List Node}, safeForest l = true →
    safeForest (cleanForest l) = true
  | [], _ => rfl
  | .text s :: ns, h => by
    simp only [safeForest, safeNode, Bool.true_and] at h
    simp [cleanForest, safeForest, safeNode, safeForest_cleanForest h]
  | .element t a cs :: ns, h => by
    simp only [safeForest, safeNode, Bool.and_eq_true] at h
    obtain ⟨⟨⟨ht, ha⟩, hcs⟩, hns⟩ := h
    by_cases hm : isNoise (.element t a cs) = true
    · rw [clean_cons_noise hm]; exact safeForest_cleanForest hns
    · rw [clean_cons_kept (by simpa using hm)]
      have htm : t ∉ REMOVED_TAGS := by simpa using ht
      simp [safeForest, safeNode, htm, ha,
        safeForest_cleanForest hcs, safeForest_cleanForest hns]

/-- The children of the sanitized clone are exactly the sanitized children
of the input. -/
theorem sanitizeClone_children (x : Node) (b : String) :
    (sanitizeClone x b).children = sanForest b x.children := by
  cases x <;> rfl

/-- The children of the cleaned tree are the two cleanup phases applied to
the input's children. -/
theorem cleanupExtractedContent_children (x : Node) :
    (cleanupExtractedContent x).children = cleanForest (removeSrForest x.children) := by
  cases x <;> rfl

/-- Safety of everything below the sanitized root. -/
theorem sanitizeClone_children_safe (x : Node) (b : String) :
    safeForest (sanitizeClone x b).children = true := by
  rw [sanitizeClone_children]
  exact safeForest_sanForest b x.children
/-- C4 counterexample: the `TreeWalker.nextNode()` loop never yields the
clone's root, so a root element's `onclick` and `style` attributes survive
`sanitizeClone` unchanged — the claim's "including the clone's root
element" is false. -/
theorem c4_counterexample :
    sanitizeClone (.element "div" [("onclick", "x"), ("style", "y")] []) "http://localhost/" =
      .element "div" [("onclick", "x"), ("style", "y")] [] := by decide

/-- C4 (amended): `sanitizeClone` leaves the clone's root element untouched
in tag and attributes (the walker never visits its root), while **below**
the root every retained element has every `on…`-prefixed and `style`
attribute stripped and every element with an unsafe lowercased tag is
dropped with its subtree; removal is deferred to after the walk, whose net
effect is the subtree-drop performed by `sanForest`. -/
theorem c4_sanitize_strips_below_root (element : Node) (b : String) :
    (sanitizeClone element b).tag = element.tag ∧
    (sanitizeClone element b).attrs = element.attrs ∧
    safeForest (sanitizeClone element b).children = true := by
  refine ⟨?_, ?_, sanitizeClone_children_safe element b⟩ <;> cases element <;> rfl

/-- C3: when `extractArticle` returns an `Extracted` result, the returned
`html` is the trimmed serialization of a forest in which no element bears
an unsafe tag (script, style, noscript, iframe, form, input, button,
select, option, textarea, svg, canvas), an `on…`-prefixed attribute, or a
`style` attribute — the serialized markup therefore contains none of those
tags or attributes. -/
theorem c3_no_unsafe_leakage (conf : ℚ → ℚ) (doc : Document) (opts : ExtractOptions)
    (html text : String) (q : ℚ) (r : String)
    (h : extractArticle conf doc opts = .extracted html text q r) :
    ∃ forest : List Node, html = trimStr (serializeForest forest) ∧
      safeForest forest = true := by
  unfold extractArticle at h
  by_cases hemp : (candidatesOf doc).isEmpty
  · rw [if_pos hemp] at h
    exact absurd h (by simp)
  · rw [if_neg hemp] at h
    split at h
    · exact absurd h (by simp)
    · rename_i top rest heq
      dsimp only at h
      split at h
      · exact absurd h (by simp)
      · split at h
        · exact absurd h (by simp)
        · refine ⟨(cleanupExtractedContent (sanitizeClone top.el
              (opts.baseUrl.getD (doc.locationHref.getD "http://localhost/")))).children,
              ?_, ?_⟩
          · injection h with h1 h2 h3 h4
            exact h1.symm
          · rw [cleanupExtractedContent_children]
            exact safeForest_cleanForest (safeForest_removeSrForest
              (sanitizeClone_children_safe _ _))

/-- A 156-character sample article body used by concrete witnesses. -/
def sampleText : String :=
  "Lorem ipsum dolor sit amet, consectetur adipiscing elit, sed do eiusmod tempor incididunt ut labore et dolore magna aliqua. Ut enim ad minim veniam, quis no"

/-- A sample document whose single `div` candidate gets extracted. -/
def sampleDoc : Document :=
  ⟨.element "body" [] [.element "div" [] [.text sampleText]], none⟩

theorem c3_witness :
    ∃ forest : List Node, sampleText = trimStr (serializeForest forest) ∧
      safeForest forest = true :=
  c3_no_unsafe_leakage (fun q => q / 80) sampleDoc { threshold := some 0 }
    sampleText sampleText (16/1000) "ok" (by with_unfolding_all decide)
theorem insertDesc_cons_ge {c d : Candidate} {ds : List Candidate} (h : c.total ≥ d.total) :
    insertDesc c (d :: ds) = c :: d :: ds := by
  have h0 : insertDesc c (d :: ds)
      = if c.total ≥ d.total then c :: d :: ds else d :: insertDesc c ds := rfl
  rw [h0, if_pos h]

theorem insertDesc_cons_lt {c d : Candidate} {ds : List Candidate} (h : ¬ c.total ≥ d.total) :
    insertDesc c (d :: ds) = d :: insertDesc c ds := by
  have h0 : insertDesc c (d :: ds)
      = if c.total ≥ d.total then c :: d :: ds else d :: insertDesc c ds := rfl
  rw [h0, if_neg h]

/-- The head of the stable descending sort is the first-discovered maximal
candidate: it splits the input as `l1 ++ top :: l2` where everything in the
strictly-earlier prefix `l1` has a strictly smaller total. -/
theorem sortDesc_head_first_max :
    ∀ (l : List Candidate) (top : Candidate) (rest : List Candidate),
      sortDesc l = top :: rest →
      ∃ l1 l2, l = l1 ++ top :: l2 ∧ (∀ c ∈ l1, c.total < top.total) ∧
        (∀ c ∈ l, c.total ≤ top.total)
  | [], top, rest, h => by simp [sortDesc] at h
  | c :: cs, top, rest, h => by
    rw [show sortDesc (c :: cs) = insertDesc c (sortDesc cs) from rfl] at h
    rcases hs : sortDesc cs with _ | ⟨d, ds⟩
    · rw [hs] at h
      have hcs : cs = [] := (sortDesc_eq_nil_iff cs).mp hs
      subst hcs
      simp only [insertDesc] at h
      injection h with h1 h2
      subst h1
      exact ⟨[], [], rfl, by simp, by simp⟩
    · rw [hs] at h
      by_cases hge : c.total ≥ d.total
      · rw [insertDesc_cons_ge hge] at h
        injection h with h1 h2
        subst h1
        refine ⟨[], cs, rfl, by simp, ?_⟩
        intro x hx
        rcases List.mem_cons.mp hx with hx | hx
        · subst hx; exact le_refl _
        · obtain ⟨l1, l2, hsplit, hlt, hle⟩ := sortDesc_head_first_max cs d ds hs
          exact le_trans (hle x hx) hge
      · rw [insertDesc_cons_lt hge] at h
        injection h with h1 h2
        subst h1
        obtain ⟨l1, l2, hsplit, hlt, hle⟩ := sortDesc_head_first_max cs d ds hs
        refine ⟨c :: l1, l2, by rw [hsplit]; rfl, ?_, ?_⟩
        · intro x hx
          rcases List.mem_cons.mp hx with hx | hx
          · subst hx; exact lt_of_not_ge hge
          · exact hlt x hx
        · intro x hx
          rcases List.mem_cons.mp hx with hx | hx
          · subst hx; exact le_of_lt (lt_of_not_ge hge)
          · exact hle x hx

/-- C7: when the surviving candidates are sorted by
`sort((a, b) => b.total - a.total)` — a stable sort — the selected winner
(the head `top` that `extractArticle` destructures) is the first-discovered
candidate among those sharing the maximal total: every candidate occurring
before it in collection order has a strictly smaller total, and no
candidate at all has a larger one. -/
theorem c7_stable_sort_tie (doc : Document) (top : Candidate) (rest : List Candidate)
    (h : sortDesc (candidatesOf doc) = top :: rest) :
    ∃ l1 l2, candidatesOf doc = l1 ++ top :: l2 ∧
      (∀ c ∈ l1, c.total < top.total) ∧
      (∀ c ∈ candidatesOf doc, c.total ≤ top.total) :=
  sortDesc_head_first_max _ top rest h

/-- Two identically scored `div` candidates (a tie). -/
def tieDiv1 : Node :=
  .element "div" [("id", "x1")] [.element "p" [] [.text "ab"], .element "p" [] [.text "ab"]]

/-- The later-discovered twin of `tieDiv1`. -/
def tieDiv2 : Node :=
  .element "div" [("id", "x2")] [.element "p" [] [.text "ab"], .element "p" [] [.text "ab"]]

/-- A document holding the two tied candidates in discovery order. -/
def tieDoc : Document := ⟨.element "body" [] [tieDiv1, tieDiv2], none⟩

/-- The scored candidate built from `tieDiv1`. -/
def tieCand : Candidate := ⟨tieDiv1, ⟨4, 2, 0, 0, 0, 0, 3, 1/30, 0, 271/30⟩, 271/30⟩

theorem c7_witness :
    ∃ l1 l2, candidatesOf tieDoc = l1 ++ tieCand :: l2 ∧
      (∀ c ∈ l1, c.total < tieCand.total) ∧
      (∀ c ∈ candidatesOf tieDoc, c.total ≤ tieCand.total) :=
  c7_stable_sort_tie tieDoc tieCand
    [⟨tieDiv2, ⟨4, 2, 0, 0, 0, 0, 3, 1/30, 0, 271/30⟩, 271/30⟩]
    (by with_unfolding_all decide)
/-- C6 model: the pipeline with the document handle threaded through every
step.  Candidate collection, visibility filtering, scoring and sorting are
pure reads of the document; `sanitizeClone` begins with `cloneNode(true)`,
a deep copy, so sanitization and cleanup act on the detached clone value;
the document travels through unchanged and is returned with the result. -/
def extractArticleTrace (conf : ℚ → ℚ) (doc : Document) (options : ExtractOptions) :
    ExtractResult × Document :=
  let threshold := options.threshold.getD (7/20)
  let baseUrl := options.baseUrl.getD (doc.locationHref.getD "http://localhost/")
  let candidates := candidatesOf doc
  if candidates.isEmpty then (.unavailable "No viable candidates found" none, doc)
  else
    match sortDesc candidates with
    | [] => (.unavailable "No viable candidates found" none, doc)
    | top :: _ =>
      let confidence := conf top.total
      if confidence < threshold then
        (.unavailable "Confidence below threshold" (some confidence), doc)
      else
        let sanitized := sanitizeClone top.el baseUrl
        let cleaned := cleanupExtractedContent sanitized
        let html := trimStr (innerHTML cleaned)
        let text := trimStr (nodeText cleaned)
        if html == "" || decide (strLen text < MIN_TEXT_LENGTH) then
          (.unavailable "Extracted content too small" (some confidence), doc)
        else (.extracted html text (round3 confidence) "ok", doc)

/-- C6: `extractArticle` never mutates the caller's tree: in the threaded
rendition of the pipeline the document is passed through every step
unchanged — scoring and selection only read it, and all sanitization and
cleanup mutations apply to the deep clone of the winning candidate — and
the produced result is exactly `extractArticle`'s. -/
theorem c6_no_input_mutation (conf : ℚ → ℚ) (doc : Document) (opts : ExtractOptions) :
    (extractArticleTrace conf doc opts).2 = doc ∧
    (extractArticleTrace conf doc opts).1 = extractArticle conf doc opts := by
  unfold extractArticleTrace extractArticle
  dsimp only
  split
  · exact ⟨rfl, rfl⟩
  · split
    · exact ⟨rfl, rfl⟩
    · split
      · exact ⟨rfl, rfl⟩
      · split
        · exact ⟨rfl, rfl⟩
        · exact ⟨rfl, rfl⟩

/-- C9: threshold monotonicity.  For a fixed confidence normalizer,
document and base URL, if `extractArticle` returns `Extracted` at the
larger threshold `t2` it returns the identical `Extracted` result (same
html, text and confidence) at any smaller threshold `t1`; raising the
threshold can only turn `Extracted` into `Unavailable`, never the
reverse. -/
theorem c9_threshold_monotone (conf : ℚ → ℚ) (doc : Document) (b : Option String)
    (t1 t2 : ℚ) (h12 : t1 ≤ t2) (html text : String) (q : ℚ) (r : String)
    (h : extractArticle conf doc ⟨some t2, b⟩ = .extracted html text q r) :
    extractArticle conf doc ⟨some t1, b⟩ = .extracted html text q r := by
  unfold extractArticle at h ⊢
  dsimp only at h ⊢
  by_cases hemp : (candidatesOf doc).isEmpty
  · rw [if_pos hemp] at h
    exact absurd h (by simp)
  · rw [if_neg hemp] at h ⊢
    rcases hs : sortDesc (candidatesOf doc) with _ | ⟨top, rest⟩
    · rw [hs] at h
      exact absurd h (by simp)
    · rw [hs] at h
      dsimp only [Option.getD] at h ⊢
      by_cases hc2 : conf top.total < t2
      · rw [if_pos hc2] at h
        exact absurd h (by simp)
      · rw [if_neg hc2] at h
        have hc1 : ¬ conf top.total < t1 := fun hlt => hc2 (lt_of_lt_of_le hlt h12)
        rw [if_neg hc1]
        exact h

theorem c9_witness :
    extractArticle (fun q => q / 80) sampleDoc { threshold := some 0 } =
      .extracted sampleText sampleText (16/1000) "ok" :=
  c9_threshold_monotone (fun q => q / 80) sampleDoc none 0 (1/100) (by norm_num)
    sampleText sampleText (16/1000) "ok" (by with_unfolding_all decide)

/-- C10: the confidence reported inside `Unavailable` results is the raw,
unrounded output of the normalizer applied to the winner's total — only the
`Extracted` variant rounds to three decimals — the threshold gate compares
the unrounded value, and whenever the normalizer is sign-preserving and the
sole winner's total is negative the reported confidence is strictly
negative rather than in `[0, 1)`. -/
theorem c10_confidence_unrounded (conf : ℚ → ℚ) (doc : Document) (opts : ExtractOptions)
    (top : Candidate) (rest : List Candidate)
    (h : sortDesc (candidatesOf doc) = top :: rest) :
    (∀ r q, extractArticle conf doc opts = .unavailable r (some q) → q = conf top.total) ∧
    (∀ html text q r, extractArticle conf doc opts = .extracted html text q r →
      q = round3 (conf top.total)) ∧
    (conf top.total < opts.threshold.getD (7/20) →
      extractArticle conf doc opts = .unavailable "Confidence below threshold"
        (some (conf top.total))) ∧
    (conf top.total < 0 → ∀ r q,
      extractArticle conf doc opts = .unavailable r (some q) → q < 0) := by
  have hemp : ¬ (candidatesOf doc).isEmpty = true := by
    rcases he : candidatesOf doc with _ | _
    · rw [he] at h; simp [sortDesc] at h
    · simp [he]
  have hun : extractArticle conf doc opts =
      (if conf top.total < opts.threshold.getD (7/20) then
        ExtractResult.unavailable "Confidence below threshold" (some (conf top.total))
      else
        let cleaned := cleanupExtractedContent (sanitizeClone top.el
          (opts.baseUrl.getD (doc.locationHref.getD "http://localhost/")))
        let html := trimStr (innerHTML cleaned)
        let text := trimStr (nodeText cleaned)
        if html == "" || decide (strLen text < MIN_TEXT_LENGTH) then
          ExtractResult.unavailable "Extracted content too small" (some (conf top.total))
        else ExtractResult.extracted html text (round3 (conf top.total)) "ok") := by
    unfold extractArticle
    rw [if_neg hemp, h]
  have main : ∀ r q, extractArticle conf doc opts = .unavailable r (some q) →
      q = conf top.total := by
    intro r q hres
    rw [hun] at hres
    split at hres
    · injection hres with h1 h2
      exact (Option.some.inj h2).symm
    · dsimp only at hres
      split at hres
      · injection hres with h1 h2
        exact (Option.some.inj h2).symm
      · exact absurd hres (by simp)
  refine ⟨main, ?_, ?_, fun hneg r q hres => (main r q hres) ▸ hneg⟩
  · intro html text q r hres
    rw [hun] at hres
    split at hres
    · exact absurd hres (by simp)
    · dsimp only at hres
      split at hres
      · exact absurd hres (by simp)
      · injection hres with h1 h2 h3 h4
        exact h3.symm
  · intro hlt
    rw [hun, if_pos hlt]

/-- The analytic fact behind C10's sign hypothesis on the normalizer: the
source's `normalizeConfidence(score) = Math.tanh(score / 80)` is strictly
negative on negative scores. -/
theorem tanh_neg_of_neg {x : ℝ} (hx : x < 0) : Real.tanh x < 0 := by
  rw [Real.tanh_eq_sinh_div_cosh]
  refine div_neg_of_neg_of_pos ?_ (Real.cosh_pos x)
  rw [← Real.sinh_zero]
  exact Real.sinh_lt_sinh.mpr hx

/-- A nav-classed candidate whose total score is negative (the 20-point nav
penalty dominates two tiny paragraphs). -/
def negDiv : Node :=
  .element "div" [("class", "nav")] [.element "p" [] [.text "ab"], .element "p" [] [.text "ab"]]

/-- A document whose sole surviving candidate is `negDiv`. -/
def negDoc : Document := ⟨.element "body" [] [negDiv], none⟩

/-- The scored candidate built from `negDiv`: total `1/30 + 6 + 3 − 20`. -/
def negCand : Candidate := ⟨negDiv, ⟨4, 2, 0, 0, 0, 20, 3, 1/30, 0, -329/30⟩, -329/30⟩

theorem c10_witness :
    extractArticle (fun q => q / 80) negDoc {} =
      .unavailable "Confidence below threshold" (some ((-329/30 : ℚ) / 80)) ∧
    ((-329/30 : ℚ) / 80) < 0 :=
  ⟨(c10_confidence_unrounded (fun q => q / 80) negDoc {} negCand []
      (by with_unfolding_all decide)).2.2.1 (by with_unfolding_all decide),
   by norm_num⟩
/-- First-match attribute lookup on an attribute list (the
`getAttribute` read that `resolveAttr` performs). -/
def attrLookup (attrs : List (String × String)) (name : String) : Option String :=
  (attrs.find? (fun p => p.1 == name)).map Prod.snd

theorem attrLookup_cons_hit {p : String × String} {ps : List (String × String)} {n : String}
    (hp : (p.1 == n) = true) : attrLookup (p :: ps) n = some p.2 := by
  simp [attrLookup, List.find?_cons, hp]

theorem attrLookup_cons_miss {p : String × String} {ps : List (String × String)} {n : String}
    (hp : (p.1 == n) = false) : attrLookup (p :: ps) n = attrLookup ps n := by
  simp [attrLookup, List.find?_cons, hp]

theorem setAttr_cons (p : String × String) (ps : List (String × String)) (n w : String) :
    setAttr (p :: ps) n w = (if p.1 == n then (p.1, w) else p) :: setAttr ps n w := rfl

theorem attrLookup_setAttr_self (attrs : List (String × String)) (n w : String) :
    attrLookup (setAttr attrs n w) n = (attrLookup attrs n).map (fun _ => w) := by
  induction attrs with
  | nil => rfl
  | cons p ps ih =>
    rw [setAttr_cons]
    by_cases hp : (p.1 == n) = true
    · rw [if_pos hp,
        show attrLookup ((p.1, w) :: setAttr ps n w) n = some w from attrLookup_cons_hit hp,
        show attrLookup (p :: ps) n = some p.2 from attrLookup_cons_hit hp]
      rfl
    · have hp2 : (p.1 == n) = false := by simpa using hp
      rw [if_neg (by simp [hp2]),
        show attrLookup (p :: setAttr ps n w) n = attrLookup (setAttr ps n w) n from
          attrLookup_cons_miss hp2,
        show attrLookup (p :: ps) n = attrLookup ps n from attrLookup_cons_miss hp2, ih]

theorem attrLookup_setAttr_ne {m n : String} (hmn : m ≠ n)
    (attrs : List (String × String)) (w : String) :
    attrLookup (setAttr attrs m w) n = attrLookup attrs n := by
  induction attrs with
  | nil => rfl
  | cons p ps ih =>
    rw [setAttr_cons]
    by_cases hp : (p.1 == m) = true
    · have hpm : p.1 = m := by simpa using hp
      have hpn : (p.1 == n) = false := by simp [hpm, hmn]
      rw [if_pos hp,
        show attrLookup ((p.1, w) :: setAttr ps m w) n = attrLookup (setAttr ps m w) n from
          attrLookup_cons_miss hpn,
        show attrLookup (p :: ps) n = attrLookup ps n from attrLookup_cons_miss hpn, ih]
    · have hp2 : (p.1 == m) = false := by simpa using hp
      rw [if_neg (by simp [hp2])]
      by_cases hpn : (p.1 == n) = true
      · rw [show attrLookup (p :: setAttr ps m w) n = some p.2 from attrLookup_cons_hit hpn,
          show attrLookup (p :: ps) n = some p.2 from attrLookup_cons_hit hpn]
      · have hpn2 : (p.1 == n) = false := by simpa using hpn
        rw [show attrLookup (p :: setAttr ps m w) n = attrLookup (setAttr ps m w) n from
            attrLookup_cons_miss hpn2,
          show attrLookup (p :: ps) n = attrLookup ps n from attrLookup_cons_miss hpn2, ih]

/-- Outputs of `resolveUrl` are never the empty string. -/
theorem resolveUrl_ne_empty {v b w : String} (h : resolveUrl v b = some w) : w ≠ "" := by
  unfold resolveUrl at h
  rcases hr : resolveL v.data b.data with _ | l
  · rw [hr] at h; exact absurd h (by simp)
  · rw [hr] at h
    have hw : w = ⟨l⟩ := by simpa using h.symm
    obtain ⟨u, hu, hl⟩ := resolveL_wf hr
    subst hw
    intro hc
    have hdata : l = [] := congrArg String.data hc
    rw [hl] at hdata
    unfold serializeUrl at hdata
    rcases hsch : u.scheme with _ | _
    · exact hu.scheme_ne hsch
    · rw [hsch] at hdata; simp at hdata

/-- C5 counterexample: an already-absolute URL is **not** always left
unchanged — WHATWG serialization canonicalizes it.  `src="https://x.com"`
becomes `"https://x.com/"` during sanitization (a trailing slash is added
to the empty path). -/
theorem c5_counterexample :
    sanitizeClone (.element "div" [] [.element "img" [("src", "https://x.com")] []])
        "https://y.com/" =
      .element "div" [] [.element "img" [("src", "https://x.com/")] []] ∧
    ("https://x.com/" : String) ≠ "https://x.com" := by
  constructor
  · decide
  · decide

/-- C5 (amended): during sanitization, for every retained element whose tag
has a URL-bearing attribute with a non-empty value `v`: the value is
replaced by the serialization of its resolution against `baseUrl` whenever
the URL parser succeeds (in particular a relative value becomes absolute),
and is left unchanged — with the parse failure swallowed, no error reaching
the caller — whenever it fails; every successfully resolved value is a
canonically-serialized absolute URL, and such canonical absolute URLs are
fixed points of resolution, so an already-canonical absolute URL is left
unchanged (a non-canonical absolute URL is normalized, as the
counterexample shows). -/
theorem c5_url_rewriting (b : String) (attrs : List (String × String)) (name v : String) :
    (attrLookup attrs name = some v → v ≠ "" →
      attrLookup (resolveAttr b attrs name) name = some ((resolveUrl v b).getD v)) ∧
    (∀ w, resolveUrl v b = some w → ∃ u, UrlWf u ∧ w = (⟨serializeUrl u⟩ : String)) ∧
    (∀ w, resolveUrl v b = some w → ∀ b2, resolveUrl w b2 = some w) := by
  refine ⟨?_, ?_, ?_⟩
  · intro hl hv
    unfold resolveAttr
    have hsc : (attrs.find? (fun p => p.1 == name)).map Prod.snd = some v := hl
    rw [hsc]
    dsimp only
    rw [if_neg (by simpa using hv)]
    rcases hr : resolveUrl v b with _ | w
    · exact hl
    · rw [attrLookup_setAttr_self, hl]
      rfl
  · intro w hw
    unfold resolveUrl at hw
    rcases hr : resolveL v.data b.data with _ | l
    · rw [hr] at hw; exact absurd hw (by simp)
    · rw [hr] at hw
      obtain ⟨u, hu, hl⟩ := resolveL_wf hr
      have hwl : w = ⟨l⟩ := by simpa using hw.symm
      exact ⟨u, hu, by rw [hwl, hl]⟩
  · intro w hw b2
    exact resolveUrl_roundtrip hw b2

theorem c5_witness :
    attrLookup (resolveAttr "https://x.com/" [("src", "a/b")] "src") "src" =
      some ((resolveUrl "a/b" "https://x.com/").getD "a/b") ∧
    (resolveUrl "a/b" "https://x.com/").getD "a/b" = "https://x.com/a/b" :=
  ⟨(c5_url_rewriting "https://x.com/" [("src", "a/b")] "src" "a/b").1 (by decide) (by decide),
   by decide⟩
/-- All entries named `n` carry value `w`. -/
def UniformAt (l : List (String × String)) (n w : String) : Prop :=
  ∀ p ∈ l, p.1 = n → p.2 = w

theorem setAttr_eq_self_of_uniform {l : List (String × String)} {n w : String}
    (h : UniformAt l n w) : setAttr l n w = l := by
  induction l with
  | nil => rfl
  | cons p ps ih =>
    rw [setAttr_cons]
    by_cases hp : (p.1 == n) = true
    · have hpn : p.1 = n := by simpa using hp
      have hval : p.2 = w := h p (by simp) hpn
      rw [if_pos hp, show ((p.1, w) : String × String) = p from by rw [← hval],
        ih (fun q hq hqn => h q (by simp [hq]) hqn)]
    · rw [if_neg hp, ih (fun q hq hqn => h q (by simp [hq]) hqn)]

theorem uniform_of_setAttr_eq_self {l : List (String × String)} {n w : String}
    (h : setAttr l n w = l) : UniformAt l n w := by
  induction l with
  | nil => intro p hp; simp at hp
  | cons p ps ih =>
    rw [setAttr_cons] at h
    injection h with h1 h2
    intro q hq hqn
    rcases List.mem_cons.mp hq with rfl | hq2
    · by_cases hp : (q.1 == n) = true
      · rw [if_pos hp] at h1
        exact (congrArg Prod.snd h1).symm
      · exact absurd (by simpa using hqn) hp
    · exact ih h2 q hq2 hqn

theorem uniform_setAttr (l : List (String × String)) (n w : String) :
    UniformAt (setAttr l n w) n w := by
  intro q hq hqn
  obtain ⟨p, hp, rfl⟩ := List.mem_map.mp hq
  by_cases hpn : (p.1 == n) = true
  · rw [if_pos hpn]
  · rw [if_neg hpn] at hqn ⊢
    exact absurd (by simpa using hqn) hpn

theorem uniform_preserved_setAttr_ne {l : List (String × String)} {n w m w2 : String}
    (hmn : m ≠ n) (h : UniformAt l n w) : UniformAt (setAttr l m w2) n w := by
  intro q hq hqn
  obtain ⟨p, hp, rfl⟩ := List.mem_map.mp hq
  by_cases hpm : (p.1 == m) = true
  · rw [if_pos hpm] at hqn ⊢
    exact absurd hqn (by simp [show p.1 = m from by simpa using hpm, hmn])
  · rw [if_neg hpm] at hqn ⊢
    exact h p hp hqn

/-- Deterministic description of the rewriting branch of `resolveAttr`. -/
theorem resolveAttr_eq_setAttr {b : String} {l : List (String × String)} {n v w : String}
    (hl : attrLookup l n = some v) (hv : v ≠ "") (hr : resolveUrl v b = some w) :
    resolveAttr b l n = setAttr l n w := by
  unfold resolveAttr
  rw [show (l.find? (fun p => p.1 == n)).map Prod.snd = some v from hl]
  dsimp only
  rw [if_neg (by simpa using hv), hr]

/-- Case analysis of `resolveAttr`: it is the identity or a `setAttr` with
a successfully resolved value. -/
theorem resolveAttr_cases (b : String) (l : List (String × String)) (n : String) :
    resolveAttr b l n = l ∨
    ∃ v w, attrLookup l n = some v ∧ v ≠ "" ∧ resolveUrl v b = some w ∧
      resolveAttr b l n = setAttr l n w := by
  rcases hf : attrLookup l n with _ | v
  · left
    unfold resolveAttr
    rw [show (l.find? (fun p => p.1 == n)).map Prod.snd = none from hf]
  · by_cases hv : v = ""
    · left
      unfold resolveAttr
      rw [show (l.find? (fun p => p.1 == n)).map Prod.snd = some v from hf]
      dsimp only
      rw [if_pos (by simp [hv])]
    · rcases hr : resolveUrl v b with _ | w
      · left
        unfold resolveAttr
        rw [show (l.find? (fun p => p.1 == n)).map Prod.snd = some v from hf]
        dsimp only
        rw [if_neg (by simpa using hv), hr]
      · exact Or.inr ⟨v, w, rfl, hv, hr, resolveAttr_eq_setAttr hf hv hr⟩

/-- A per-name fixed point of the URL-rewriting step. -/
def StableAt (b : String) (l : List (String × String)) (n : String) : Prop :=
  resolveAttr b l n = l

theorem stableAt_resolveAttr (b : String) (l : List (String × String)) (n : String) :
    StableAt b (resolveAttr b l n) n := by
  rcases resolveAttr_cases b l n with h | ⟨v, w, hl, hv, hr, heq⟩
  · rw [h]; exact h
  · rw [heq]
    have hlk : attrLookup (setAttr l n w) n = some w := by
      rw [attrLookup_setAttr_self, hl]; rfl
    have hrw : resolveUrl w b = some w := resolveUrl_roundtrip hr b
    have hwne : w ≠ "" := resolveUrl_ne_empty hr
    have hd : resolveAttr b (setAttr l n w) n = setAttr (setAttr l n w) n w :=
      resolveAttr_eq_setAttr hlk hwne hrw
    show resolveAttr b (setAttr l n w) n = setAttr l n w
    rw [hd]
    exact setAttr_eq_self_of_uniform (uniform_setAttr l n w)

theorem stableAt_preserved {b : String} {l : List (String × String)} {n : String}
    (m : String) (hmn : m ≠ n) (h : StableAt b l n) : StableAt b (resolveAttr b l m) n := by
  rcases resolveAttr_cases b l m with hm | ⟨v, w, hlm, hvm, hrm, heqm⟩
  · rw [hm]; exact h
  · rw [heqm]
    rcases resolveAttr_cases b (setAttr l m w) n with h2 | ⟨v2, w2, hl2, hv2, hr2, heq2⟩
    · exact h2
    · rw [attrLookup_setAttr_ne hmn] at hl2
      have hd : resolveAttr b l n = setAttr l n w2 := resolveAttr_eq_setAttr hl2 hv2 hr2
      have hsl : setAttr l n w2 = l := by rw [← hd]; exact h
      have hu2 : UniformAt (setAttr l m w) n w2 :=
        uniform_preserved_setAttr_ne hmn (uniform_of_setAttr_eq_self hsl)
      show resolveAttr b (setAttr l m w) n = setAttr l m w
      rw [heq2]
      exact setAttr_eq_self_of_uniform hu2

theorem stableAt_through_fold {b n : String} :
    ∀ (ms : List String) (l : List (String × String)), StableAt b l n →
      (∀ m ∈ ms, m ≠ n) → StableAt b (List.foldl (resolveAttr b) l ms) n
  | [], l, h, _ => h
  | m :: ms, l, h, hne => by
    rw [List.foldl_cons]
    exact stableAt_through_fold ms _ (stableAt_preserved m (hne m (by simp)) h)
      (fun m2 hm2 => hne m2 (by simp [hm2]))

theorem stableAt_foldl {b : String} :
    ∀ (names : List String) (l : List (String × String)), names.Nodup →
      ∀ n ∈ names, StableAt b (List.foldl (resolveAttr b) l names) n
  | [], l, _, n, hn => absurd hn (by simp)
  | m :: ms, l, hnd, n, hn => by
    rw [List.foldl_cons]
    rcases List.mem_cons.mp hn with rfl | hn2
    · exact stableAt_through_fold ms _ (stableAt_resolveAttr b l n)
        (fun m2 hm2 hc => (List.nodup_cons.mp hnd).1 (hc ▸ hm2))
    · exact stableAt_foldl ms _ (List.nodup_cons.mp hnd).2 n hn2

theorem foldl_eq_self_of_stable {b : String} :
    ∀ (names : List String) (l : List (String × String)),
      (∀ n ∈ names, StableAt b l n) → List.foldl (resolveAttr b) l names = l
  | [], l, _ => rfl
  | m :: ms, l, h => by
    rw [List.foldl_cons, h m (by simp)]
    exact foldl_eq_self_of_stable ms l (fun n hn => h n (by simp [hn]))

theorem urlAttrsOf_nodup (t : String) : (urlAttrsOf t).Nodup := by
  unfold urlAttrsOf
  repeat' split
  all_goals decide

/-- A second URL-rewriting pass over the same tag and base is a no-op. -/
theorem resolveAttrs_idem (b t : String) (a : List (String × String)) :
    resolveAttrs b t (resolveAttrs b t a) = resolveAttrs b t a := by
  unfold resolveAttrs
  exact foldl_eq_self_of_stable _ _
    (fun n hn => stableAt_foldl _ a (urlAttrsOf_nodup t) n hn)

theorem stripAttrs_eq_self_of_clean {a : List (String × String)} (h : attrsClean a = true) :
    stripAttrs a = a := by
  unfold stripAttrs
  rw [List.filter_eq_self]
  intro p hp
  have hx := (List.all_eq_true.mp h) p hp
  simp only [Bool.and_eq_true] at hx
  simp only [Bool.not_or, Bool.and_eq_true]
  exact ⟨hx.1, hx.2⟩

theorem sanForest_idem (b : String) :
    ∀ l : List Node, sanForest b (sanForest b l) = sanForest b l
  | [] => rfl
  | .text s :: ns => by
    rw [show sanForest b (.text s :: ns) = .text s :: sanForest b ns from rfl,
      show sanForest b (.text s :: sanForest b ns)
        = .text s :: sanForest b (sanForest b ns) from rfl,
      sanForest_idem b ns]
  | .element t a cs :: ns => by
    by_cases ht : REMOVED_TAGS.contains t = true
    · rw [sanForest_cons_removed ht, sanForest_idem b ns]
    · have htf : REMOVED_TAGS.contains t = false := by simpa using ht
      rw [sanForest_cons_kept htf, sanForest_cons_kept htf,
        stripAttrs_eq_self_of_clean (attrsClean_resolveAttrs (attrsClean_stripAttrs a) b t),
        resolveAttrs_idem, sanForest_idem b cs, sanForest_idem b ns]

/-- C8: `sanitizeClone` is idempotent — sanitizing an already-sanitized
clone against the same `baseUrl` changes nothing: no further tags are
removed, no further attributes stripped (the root's attributes are
untouched by both passes), and every already-resolved URL attribute value
is a fixed point of resolution against the base. -/
theorem c8_sanitize_idempotent (n : Node) (b : String) :
    sanitizeClone (sanitizeClone n b) b = sanitizeClone n b := by
  cases n with
  | text s => rfl
  | element t a cs =>
    show Node.element t a (sanForest b (sanForest b cs)) = Node.element t a (sanForest b cs)
    rw [sanForest_idem]
end StillReader
